import Mathlib

/-!
Verification of the QuantPerfector problem engine (SM-2 memory model,
priority scorer, selection pipeline, drill pool, key canonicalization).

The definitions below are a shallow embedding of the JavaScript source:
  - JS numbers used in score/ease/ratio arithmetic are modelled as `Rat`;
  - millisecond counts and lifetime counters as `Nat`, operands as `Int`;
  - calendar dates (ISO `YYYY-MM-DD` strings in the source) as `Int` day
    numbers: lexicographic comparison of ISO date strings agrees with
    chronological order, and the source's
    `Math.floor((dateA - dateB)/86400000)` on date-only values is exactly
    day-number subtraction;
  - `Math.random()` draws are injected as explicit `Rat` parameters
    (a stream `Nat → Rat` where several draws are consumed);
  - the unbounded resampling loop in `generateRandomProblem('sub')` gets a
    fuel parameter and returns `Option`, `none` meaning fuel ran out;
  - `Array.prototype.sort` with a numeric comparator is modelled by
    `List.insertionSort` with the corresponding total relation (both
    produce a permutation that is sorted for that relation).
-/

namespace QP

/-- The four arithmetic operation tags of the engine. -/
inductive Op where
  | add
  | sub
  | mul
  | div
deriving DecidableEq, Repr

/-- Name of an operation as it appears in problem keys (source `constants.js`). -/
def opName : Op → String
  | .add => "add"
  | .sub => "sub"
  | .mul => "mul"
  | .div => "div"

/-- Key order of `DEFAULT_SETTINGS.operationRanges` (`Object.keys` insertion order). -/
def allOps : List Op := [.add, .sub, .mul, .div]

/-- One entry of `settings.operationRanges` (source `constants.js`). -/
structure OpRange where
  minA : Int
  maxA : Int
  minB : Int
  maxB : Int
  enabled : Bool

/-- The slice of settings the engine reads. -/
structure Settings where
  operationRanges : Op → OpRange

/-- Persistent per-problem state (source `storage.js`, `createProblemRecord`). -/
structure ProblemRecord where
  key : String
  operation : Op
  operandA : Int
  operandB : Int
  correctAnswer : Int
  easeFactor : Rat
  interval : Int
  repetitions : Nat
  nextReviewDate : Option Int
  totalAttempts : Nat
  totalCorrect : Nat
  totalTimeMs : Nat
  lastAttemptDate : Option Int
  lastResponseTimeMs : Option Nat
  streak : Nat
  bestStreak : Nat
deriving DecidableEq, Repr

/-- One session-scoped attempt as read by the scoring functions. -/
structure Attempt where
  problemKey : String
  operation : Op
  isCorrect : Bool
deriving DecidableEq, Repr

/-- A (record, score) pair produced during one selection call. -/
structure ScoredItem where
  record : ProblemRecord
  score : Rat
deriving DecidableEq, Repr

/-- The plain problem snapshot returned by selection / generation. -/
structure Problem where
  operation : Op
  a : Int
  b : Int
  answer : Int
  key : String
deriving DecidableEq, Repr

/-- `SM2_DEFAULTS.MIN_EASE`. -/
def MIN_EASE : Rat := 13/10

/-- `SM2_DEFAULTS.MAX_EASE`. -/
def MAX_EASE : Rat := 3

/-- `SM2_DEFAULTS.INITIAL_INTERVAL`. -/
def INITIAL_INTERVAL : Int := 1

/-- `SM2_DEFAULTS.SECOND_INTERVAL`. -/
def SECOND_INTERVAL : Int := 3

/-- JavaScript `Math.round`: rounds half toward positive infinity. -/
def jsRound (x : Rat) : Int := ⌊x + 1/2⌋

/-- `canonicalizeProblemKey` (source `constants.js`): commutative operations
put the smaller operand first; `sub`/`div` keep operand order. -/
def canonicalizeProblemKey (operation : Op) (a b : Int) : String :=
  match operation with
  | .add | .mul =>
    opName operation ++ ":" ++ toString (min a b) ++ "x" ++ toString (max a b)
  | _ => opName operation ++ ":" ++ toString a ++ "x" ++ toString b

/-- `gradeResponse` (source `engine.js`): maps one response to an SM-2 quality.
The source computes `ratio = responseTimeMs / timerLimitMs` with float
division; here the ratio is exact rational division (meaningful for a
positive timer limit). -/
def gradeResponse (isCorrect : Bool) (responseTimeMs timerLimitMs : Nat)
    (timedOut : Bool) : Nat :=
  if timedOut then 0
  else if !isCorrect then 1
  else
    let ratio : Rat := (responseTimeMs : Rat) / (timerLimitMs : Rat)
    if ratio ≤ 1/4 then 5
    else if ratio ≤ 1/2 then 4
    else 3

/-- `updateSM2` (source `engine.js`). `today` is the current calendar day;
the source's `addDays(today(), interval)` becomes `today + interval`. -/
def updateSM2 (today : Int) (record : ProblemRecord) (quality : Nat) :
    ProblemRecord :=
  let r1 :=
    if 3 ≤ quality then
      let newInterval :=
        if record.repetitions = 0 then INITIAL_INTERVAL
        else if record.repetitions = 1 then SECOND_INTERVAL
        else jsRound ((record.interval : Rat) * record.easeFactor)
      { record with interval := newInterval, repetitions := record.repetitions + 1 }
    else
      { record with repetitions := 0, interval := 0 }
  let ease1 := r1.easeFactor +
    (1/10 - (5 - (quality : Rat)) * (8/100 + (5 - (quality : Rat)) * (2/100)))
  let ease2 := max MIN_EASE (min MAX_EASE ease1)
  { r1 with easeFactor := ease2, nextReviewDate := some (today + r1.interval) }

/-- `recordAttempt` (source `engine.js`). `now` abstracts the timestamp
stored into `lastAttemptDate`. The `saveProblemRecord` call is an external
fire-and-forget persistence request and has no effect on the returned data. -/
def recordAttempt (today now : Int) (record : ProblemRecord) (isCorrect : Bool)
    (responseTimeMs timerLimitMs : Nat) (timedOut : Bool) :
    Nat × ProblemRecord :=
  let quality := gradeResponse isCorrect responseTimeMs timerLimitMs timedOut
  let r1 := { record with
    totalAttempts := record.totalAttempts + 1
    totalTimeMs := record.totalTimeMs + responseTimeMs
    lastAttemptDate := some now
    lastResponseTimeMs := some responseTimeMs }
  let r2 :=
    if isCorrect then
      let s := r1.streak + 1
      { r1 with
        totalCorrect := r1.totalCorrect + 1
        streak := s
        bestStreak := if r1.bestStreak < s then s else r1.bestStreak }
    else
      { r1 with streak := 0 }
  (quality, updateSM2 today r2 quality)

/-- Count of this-session attempts on `key` that were wrong
(source: `sessionAttempts.filter(a => a.problemKey === record.key && !a.isCorrect).length`). -/
def sessionWrongCount (key : String) (attempts : List Attempt) : Nat :=
  (attempts.filter (fun a => a.problemKey == key && !a.isCorrect)).length

/-- Index of the most recent attempt on `key`, or `-1` (source: the backward
scan in `calculatePriority` factor 5). -/
def lastIndexOfKey (key : String) : List Attempt → Int
  | [] => -1
  | a :: rest =>
    let r := lastIndexOfKey key rest
    if 0 ≤ r then r + 1
    else if a.problemKey == key then 0 else -1

/-- `calculatePriority` (source `engine.js`): base 50 plus six additive
signals, clamped to be non-negative at the end. -/
def calculatePriority (today : Int) (record : ProblemRecord)
    (sessionAttempts : List Attempt) (totalSessionProblems : Nat) : Rat :=
  let s0 : Rat := 50
  let s1 := s0 +
    (match record.nextReviewDate with
     | none => 20
     | some nrd =>
       if nrd ≤ today then
         let overdueDays : Int := today - nrd
         min 30 (10 + (overdueDays : Rat) * 5)
       else 0)
  let s2 := s1 +
    (if 0 < record.totalAttempts then
       (1 - (record.totalCorrect : Rat) / (record.totalAttempts : Rat)) * 40
     else 0)
  let s3 := s2 + (MAX_EASE - record.easeFactor) * 10
  let s4 := s3 + (sessionWrongCount record.key sessionAttempts : Rat) * 15
  let s5 := s4 +
    (if sessionAttempts.length ≠ 0 then
       let lastIdx := lastIndexOfKey record.key sessionAttempts
       if 0 ≤ lastIdx then
         let problemsSince : Int := (totalSessionProblems : Int) - lastIdx - 1
         if problemsSince < 5 then -((5 - (problemsSince : Rat)) * 20) else 0
       else 0
     else 0)
  let s6 := s5 +
    (if 0 < record.totalAttempts then
       if 7000 < (record.totalTimeMs : Rat) / (record.totalAttempts : Rat)
       then 10 else 0
     else 0)
  max 0 s6

/-- Soft interleaving penalty (the tail of the source's
`applyInterleaving`): halve the score of candidates sharing the operation
of the single most recent attempt. -/
def applySoftPenalty (scored : List ScoredItem) (sessionAttempts : List Attempt) :
    List ScoredItem :=
  match sessionAttempts.getLast? with
  | some lastA =>
    scored.map (fun s =>
      if s.record.operation = lastA.operation
      then { s with score := s.score * (1/2) } else s)
  | none => scored

/-- `applyInterleaving` (source `engine.js`): hard-exclude the operation of
the last two attempts when they agree (unless that empties the list), else
halve the score of candidates matching the single most recent operation. -/
def applyInterleaving (scored : List ScoredItem) (sessionAttempts : List Attempt) :
    List ScoredItem :=
  if sessionAttempts.length = 0 then scored
  else
    match sessionAttempts.drop (sessionAttempts.length - 2) with
    | [x, y] =>
      if x.operation = y.operation then
        if 0 < (scored.filter
            (fun s => !(s.record.operation == x.operation))).length
        then scored.filter (fun s => !(s.record.operation == x.operation))
        else scored
      else applySoftPenalty scored sessionAttempts
    | _ => applySoftPenalty scored sessionAttempts

/-- Observed share of session attempts carrying operation `op`
(`counts[op] / total` in the source's `balanceOperations`). -/
def opShare (sessionAttempts : List Attempt) (op : Op) : Rat :=
  ((sessionAttempts.filter (fun a => a.operation == op)).length : Rat) /
    (sessionAttempts.length : Rat)

/-- Even share `1 / enabledOps.length` of the source's `balanceOperations`. -/
def expectedShare (enabledOps : List Op) : Rat := 1 / (enabledOps.length : Rat)

/-- `balanceOperations` (source `engine.js`): once the session has at least
4 attempts, boost under-represented operations by 1.5x and damp
over-represented ones by 0.6x relative to an even share. -/
def balanceOperations (scored : List ScoredItem) (sessionAttempts : List Attempt)
    (enabledOps : List Op) : List ScoredItem :=
  if sessionAttempts.length < 4 then scored
  else
    scored.map (fun s =>
      if s.record.operation ∈ enabledOps then
        if opShare sessionAttempts s.record.operation <
            expectedShare enabledOps * (7/10) then
          { s with score := s.score * (3/2) }
        else if expectedShare enabledOps * (13/10) <
            opShare sessionAttempts s.record.operation then
          { s with score := s.score * (6/10) }
        else s
      else s)

/-- `weightedRandom` (source `engine.js`), with the `Math.random()` draw
injected as `u`. The source falls back to the last element when the scan
runs off the end; on an empty list it would index out of bounds (`none`). -/
def weightedRandomGo (r : Rat) : List ScoredItem → Option ScoredItem
  | [] => none
  | item :: rest =>
    let r1 := r - max 1 item.score
    if r1 ≤ 0 then some item else weightedRandomGo r1 rest

/-- Total weight plus scan of `weightedRandom`. -/
def weightedRandom (u : Rat) (items : List ScoredItem) : Option ScoredItem :=
  let totalWeight := items.foldl (fun s item => s + max 1 item.score) 0
  match weightedRandomGo (u * totalWeight) items with
  | some item => some item
  | none => items.getLast?

/-- Operations enabled in the settings, in `Object.keys` order. -/
def enabledOpsOf (s : Settings) : List Op :=
  allOps.filter (fun op => (s.operationRanges op).enabled)

/-- The merged candidate list of `selectNextProblem`: pool records with the
persisted copy substituted when one exists, filtered to enabled operations. -/
def candidatesOf (s : Settings) (pool : List ProblemRecord)
    (persisted : String → Option ProblemRecord) : List ProblemRecord :=
  (pool.map (fun r => (persisted r.key).getD r)).filter
    (fun r => decide (r.operation ∈ enabledOpsOf s))

/-- Accuracy of a record, `totalCorrect / totalAttempts` as exact division. -/
def accOf (r : ProblemRecord) : Rat :=
  (r.totalCorrect : Rat) / (r.totalAttempts : Rat)

/-- Phase-based candidate filtering of `selectNextProblem` steps for
`warmup` and `challenge`. -/
def phaseFilter (phase : String) (candidates : List ProblemRecord) :
    List ProblemRecord :=
  if phase = "warmup" then
    if 5 ≤ (candidates.filter (fun r =>
        decide ((23/10 : Rat) ≤ r.easeFactor) || r.totalAttempts == 0)).length
    then candidates.filter (fun r =>
      decide ((23/10 : Rat) ≤ r.easeFactor) || r.totalAttempts == 0)
    else candidates
  else if phase = "challenge" then
    if 3 ≤ (candidates.filter (fun r => !(r.totalAttempts == 0) &&
        (decide (r.easeFactor < 2) || decide (accOf r < 7/10)))).length
    then candidates.filter (fun r => !(r.totalAttempts == 0) &&
      (decide (r.easeFactor < 2) || decide (accOf r < 7/10)))
    else candidates
  else candidates

/-- Descending-score relation used to model the source's
`balanced.sort((a, b) => b.score - a.score)`. -/
def scoreGE (a b : ScoredItem) : Prop := b.score ≤ a.score

instance : DecidableRel scoreGE := fun a b =>
  inferInstanceAs (Decidable (b.score ≤ a.score))

instance : IsTotal ScoredItem scoreGE := ⟨fun a b => le_total b.score a.score⟩

instance : IsTrans ScoredItem scoreGE :=
  ⟨fun _ _ _ h1 h2 => le_trans h2 h1⟩

/-- The scored, interleaved, balanced, sorted, top-10 list that
`selectNextProblem` feeds into `weightedRandom`. -/
def selectionScoredList (s : Settings) (pool : List ProblemRecord)
    (persisted : String → Option ProblemRecord) (today : Int)
    (attempts : List Attempt) (phase : String) : List ScoredItem :=
  let candidates2 := phaseFilter phase (candidatesOf s pool persisted)
  let scored := candidates2.map
    (fun r => ⟨r, calculatePriority today r attempts attempts.length⟩)
  let interleaved := applyInterleaving scored attempts
  let balanced := balanceOperations interleaved attempts (enabledOpsOf s)
  (List.insertionSort scoreGE balanced).take 10

/-- `randInt` (source `engine.js`), with the `Math.random()` draw injected:
`Math.floor(u * (max - min + 1)) + min`. -/
def randInt (u : Rat) (lo hi : Int) : Int :=
  ⌊u * ((hi : Rat) - (lo : Rat) + 1)⌋ + lo

/-- `generateRandomProblem` (source `engine.js`). `rng` is the stream of
`Math.random()` draws and `i` the index of the next unconsumed draw; the
subtraction branch resamples (two fresh draws) until the operands differ,
with `fuel` bounding the number of iterations (`none` = fuel exhausted;
the source would keep looping). Division consumes two further draws for
divisor and quotient, exactly like the source's extra `randInt` calls. -/
def generateRandomProblem (s : Settings) (rng : Nat → Rat) :
    Nat → Nat → Op → Option Problem
  | _, 0, _ => none
  | i, fuel + 1, operation =>
    let range := s.operationRanges operation
    let a := randInt (rng i) range.minA range.maxA
    let b := randInt (rng (i + 1)) range.minB range.maxB
    match operation with
    | .add => some ⟨.add, a, b, a + b, canonicalizeProblemKey .add a b⟩
    | .sub =>
      let big := max a b
      let small := min a b
      if big = small then generateRandomProblem s rng (i + 2) fuel .sub
      else some ⟨.sub, big, small, big - small, canonicalizeProblemKey .sub big small⟩
    | .mul => some ⟨.mul, a, b, a * b, canonicalizeProblemKey .mul a b⟩
    | .div =>
      let divisor := randInt (rng (i + 2)) range.minB range.maxB
      let quotient := randInt (rng (i + 3)) range.minA range.maxA
      let dividend := divisor * quotient
      some ⟨.div, dividend, divisor, quotient,
        canonicalizeProblemKey .div dividend divisor⟩

/-- The first operand draw of `generateRandomProblem` (shorthand used in
its equation lemmas). -/
def genA (s : Settings) (rng : Nat → Rat) (i : Nat) (op : Op) : Int :=
  randInt (rng i) (s.operationRanges op).minA (s.operationRanges op).maxA

/-- The second operand draw of `generateRandomProblem`. -/
def genB (s : Settings) (rng : Nat → Rat) (i : Nat) (op : Op) : Int :=
  randInt (rng (i + 1)) (s.operationRanges op).minB (s.operationRanges op).maxB

/-- `selectNextProblem` (source `engine.js`). Randomness is injected:
`rng 0` picks the fallback operation, draws from index 1 feed the fallback
generator, and `uPick` is the weighted-random draw. -/
def selectNextProblem (s : Settings) (pool : List ProblemRecord)
    (persisted : String → Option ProblemRecord) (today : Int)
    (rng : Nat → Rat) (fuel : Nat) (uPick : Rat)
    (attempts : List Attempt) (phase : String) : Option Problem :=
  if (enabledOpsOf s).length = 0 then none
  else if (candidatesOf s pool persisted).length = 0 then
    if 0 ≤ (⌊rng 0 * ((enabledOpsOf s).length : Rat)⌋ : Int) then
      match (enabledOpsOf s).get?
          (⌊rng 0 * ((enabledOpsOf s).length : Rat)⌋ : Int).toNat with
      | some op => generateRandomProblem s rng 1 fuel op
      | none => none
    else none
  else
    match weightedRandom uPick
        (selectionScoredList s pool persisted today attempts phase) with
    | some sel =>
      some ⟨sel.record.operation, sel.record.operandA, sel.record.operandB,
        sel.record.correctAnswer, sel.record.key⟩
    | none => none

/-- Ascending-accuracy relation used to model the source's
`sort((a, b) => accA - accB)` in `getDrillProblems`. -/
def accLE (a b : ProblemRecord) : Prop := accOf a ≤ accOf b

instance : DecidableRel accLE := fun a b =>
  inferInstanceAs (Decidable (accOf a ≤ accOf b))

instance : IsTotal ProblemRecord accLE := ⟨fun a b => le_total (accOf a) (accOf b)⟩

instance : IsTrans ProblemRecord accLE :=
  ⟨fun _ _ _ h1 h2 => le_trans h1 h2⟩

/-- `getDrillProblems` (source `engine.js`): records of enabled operations
with at least 2 attempts and (accuracy below 0.7 or ease below 1.8),
sorted worst-accuracy first. `records` is `Object.values(getAllProblemRecords())`. -/
def getDrillProblems (records : List ProblemRecord) (s : Settings) :
    List ProblemRecord :=
  let enabledOps := enabledOpsOf s
  let filtered := records.filter (fun r =>
    decide (r.operation ∈ enabledOps) && decide (2 ≤ r.totalAttempts) &&
      (decide (accOf r < 7/10) || decide (r.easeFactor < 9/5)))
  List.insertionSort accLE filtered

/-- The ProblemRecord invariant of the specification: ease within
`[1.3, 3.0]`, lifetime correct count bounded by attempts, interval
non-negative. -/
def RecordInvariant (r : ProblemRecord) : Prop :=
  MIN_EASE ≤ r.easeFactor ∧ r.easeFactor ≤ MAX_EASE ∧
    r.totalCorrect ≤ r.totalAttempts ∧ 0 ≤ r.interval

instance (r : ProblemRecord) : Decidable (RecordInvariant r) :=
  inferInstanceAs (Decidable (_ ∧ _ ∧ _ ∧ _))

/-- Big-endian decimal digit characters of a natural number; the fuel-free
counterpart of core's `Nat.toDigitsCore` at base 10. -/
def natDigits (n : Nat) : List Char :=
  if n < 10 then [Nat.digitChar n]
  else natDigits (n / 10) ++ [Nat.digitChar (n % 10)]
decreasing_by exact Nat.div_lt_self (by omega) (by omega)

/-- Decimal digit characters of an integer, matching `Int.repr`. -/
def intDigits : Int → List Char
  | .ofNat m => natDigits m
  | .negSucc m => '-' :: natDigits (m + 1)

/-- Numeric value of a digit character. -/
def digitVal (c : Char) : Nat := c.toNat - 48

/-- Fold a digit list back into a number (most significant first). -/
def parseVal (acc : Nat) : List Char → Nat
  | [] => acc
  | c :: cs => parseVal (acc * 10 + digitVal c) cs

/-- A concrete record used to instantiate hypotheses of several theorems:
`repetitions = 2`, `interval = 10`, `easeFactor = 2.5`, 3 of 4 correct. -/
def sampleRecord : ProblemRecord :=
  ⟨"mul:7x8", .mul, 7, 8, 56, 5/2, 10, 2, none, 4, 3, 20000, none, none, 1, 2⟩

/-- Concrete settings with every operation enabled, used to instantiate
hypotheses of several theorems. -/
def allEnabledSettings : Settings := ⟨fun _ => ⟨2, 12, 2, 12, true⟩⟩

/-- A never-attempted record (no review date, zero counters). -/
def neverSeenRecord : ProblemRecord :=
  ⟨"add:4x5", .add, 4, 5, 9, 5/2, 0, 0, none, 0, 0, 0, none, none, 0, 0⟩

/-- A fully mastered record: 10 of 10 correct, maximal ease, due tomorrow
(relative to day 0). -/
def masteredRecord : ProblemRecord :=
  ⟨"mul:6x6", .mul, 6, 6, 36, 3, 30, 5, some 1, 10, 10, 30000, none, none,
    10, 10⟩

/-- Concrete settings with only addition enabled. -/
def addOnlySettings : Settings :=
  ⟨fun op => match op with
    | .add => ⟨10, 99, 10, 99, true⟩
    | _ => ⟨2, 12, 2, 12, false⟩⟩

/-- Concrete settings with addition and multiplication enabled. -/
def addMulSettings : Settings :=
  ⟨fun op => match op with
    | .add => ⟨10, 99, 10, 99, true⟩
    | .mul => ⟨2, 12, 2, 12, true⟩
    | _ => ⟨2, 12, 2, 12, false⟩⟩

/-- A fresh, easy multiplication record (default ease, never attempted). -/
def mulWarmRec (key : String) : ProblemRecord :=
  ⟨key, .mul, 3, 4, 12, 5/2, 0, 0, none, 0, 0, 0, none, none, 0, 0⟩

/-- A struggling addition record: low ease, two failed attempts. -/
def addHardRec : ProblemRecord :=
  ⟨"add:10x11", .add, 10, 11, 21, 3/2, 0, 0, none, 2, 0, 10000, none, none,
    0, 0⟩

/-- A pool of five easy multiplication records and one hard addition
record. -/
def warmupPool : List ProblemRecord :=
  [mulWarmRec "mul:2x2", mulWarmRec "mul:2x3", mulWarmRec "mul:2x4",
   mulWarmRec "mul:2x5", mulWarmRec "mul:2x6", addHardRec]

/-- A session attempt on a multiplication problem. -/
def mulAttempt1 : Attempt := ⟨"mul:7x7", .mul, true⟩

/-- A second session attempt on a multiplication problem. -/
def mulAttempt2 : Attempt := ⟨"mul:8x8", .mul, true⟩

/-! ### Decimal rendering lemmas -/

theorem natDigits_ne_nil (n : Nat) : natDigits n ≠ [] := by
  rw [natDigits]
  split <;> simp

theorem isDigit_digitChar {k : Nat} (h : k < 10) : (Nat.digitChar k).isDigit := by
  interval_cases k <;> decide

theorem isDigit_of_mem_natDigits {c : Char} {n : Nat} :
    c ∈ natDigits n → c.isDigit := by
  induction n using Nat.strong_induction_on with
  | _ n ih =>
    intro hmem
    rw [natDigits] at hmem
    by_cases h : n < 10
    · rw [if_pos h] at hmem
      simp only [List.mem_singleton] at hmem
      subst hmem
      exact isDigit_digitChar h
    · rw [if_neg h] at hmem
      rcases List.mem_append.mp hmem with h1 | h2
      · exact ih (n / 10) (Nat.div_lt_self (by omega) (by omega)) h1
      · simp only [List.mem_singleton] at h2
        subst h2
        exact isDigit_digitChar (Nat.mod_lt _ (by omega))

theorem parseVal_nil (acc : Nat) : parseVal acc [] = acc := rfl

theorem parseVal_cons (acc : Nat) (c : Char) (cs : List Char) :
    parseVal acc (c :: cs) = parseVal (acc * 10 + digitVal c) cs := rfl

theorem parseVal_append (acc : Nat) (xs ys : List Char) :
    parseVal acc (xs ++ ys) = parseVal (parseVal acc xs) ys := by
  induction xs generalizing acc with
  | nil => rfl
  | cons c cs ih =>
    rw [List.cons_append, parseVal_cons, parseVal_cons, ih]

theorem digitVal_digitChar {n : Nat} (h : n < 10) :
    digitVal (Nat.digitChar n) = n := by
  interval_cases n <;> decide

theorem parseVal_natDigits (n : Nat) :
    ∀ acc, parseVal acc (natDigits n) = acc * 10 ^ (natDigits n).length + n := by
  induction n using Nat.strong_induction_on with
  | _ n ih =>
    intro acc
    rw [natDigits]
    by_cases h : n < 10
    · rw [if_pos h, parseVal_cons, parseVal_nil, digitVal_digitChar h,
        List.length_singleton, pow_one]
    · rw [if_neg h]
      rw [parseVal_append, ih (n / 10) (Nat.div_lt_self (by omega) (by omega))]
      have hm : n % 10 < 10 := Nat.mod_lt _ (by omega)
      rw [parseVal_cons, parseVal_nil, digitVal_digitChar hm,
        List.length_append, List.length_singleton, pow_succ]
      calc (acc * 10 ^ (natDigits (n / 10)).length + n / 10) * 10 + n % 10
          = acc * (10 ^ (natDigits (n / 10)).length * 10) +
              (10 * (n / 10) + n % 10) := by ring
        _ = acc * (10 ^ (natDigits (n / 10)).length * 10) + n := by
              rw [Nat.div_add_mod]

theorem natDigits_injective : Function.Injective natDigits := by
  intro m n h
  have hm := parseVal_natDigits m 0
  have hn := parseVal_natDigits n 0
  rw [h] at hm
  omega

theorem head_natDigits_ne_dash (n : Nat) : '-' ∉ natDigits n := by
  intro h
  have := isDigit_of_mem_natDigits h
  simp [Char.isDigit] at this

theorem intDigits_injective : Function.Injective intDigits := by
  intro a b h
  match a, b with
  | .ofNat m, .ofNat n =>
    simp only [intDigits] at h
    exact congrArg Int.ofNat (natDigits_injective h)
  | .ofNat m, .negSucc n =>
    exfalso
    simp only [intDigits] at h
    have : '-' ∈ natDigits m := h ▸ List.mem_cons_self _ _
    exact head_natDigits_ne_dash m this
  | .negSucc m, .ofNat n =>
    exfalso
    simp only [intDigits] at h
    have : '-' ∈ natDigits n := h ▸ List.mem_cons_self _ _
    exact head_natDigits_ne_dash n this
  | .negSucc m, .negSucc n =>
    simp only [intDigits, List.cons.injEq, true_and] at h
    have := natDigits_injective h
    exact congrArg Int.negSucc (by omega)

theorem toDigitsCore_eq_natDigits :
    ∀ (fuel n : Nat) (ds : List Char), n < fuel →
      Nat.toDigitsCore 10 fuel n ds = natDigits n ++ ds := by
  intro fuel
  induction fuel with
  | zero => omega
  | succ f ih =>
    intro n ds h
    rw [Nat.toDigitsCore]
    by_cases h10 : n < 10
    · have hz : n / 10 = 0 := Nat.div_eq_of_lt h10
      rw [if_pos hz, natDigits, if_pos h10, Nat.mod_eq_of_lt h10]
      rfl
    · have hz : ¬ n / 10 = 0 := by
        have : 0 < n / 10 := Nat.div_pos (by omega) (by omega)
        omega
      rw [if_neg hz]
      have hdiv : n / 10 < f :=
        lt_of_lt_of_le (Nat.div_lt_self (by omega) (by omega)) (by omega)
      rw [ih (n / 10) _ hdiv]
      conv_rhs => rw [natDigits, if_neg h10]
      rw [List.append_assoc]
      rfl

theorem toDigits_eq_natDigits (n : Nat) : Nat.toDigits 10 n = natDigits n := by
  rw [Nat.toDigits, toDigitsCore_eq_natDigits _ _ _ (Nat.lt_succ_self n),
    List.append_nil]

theorem toString_int_data (a : Int) : (toString a).data = intDigits a := by
  match a with
  | .ofNat m =>
    show (Nat.repr m).data = natDigits m
    rw [Nat.repr, toDigits_eq_natDigits]
    rfl
  | .negSucc m =>
    show (("-" ++ Nat.repr (m + 1)) : String).data = '-' :: natDigits (m + 1)
    rw [String.data_append, Nat.repr, toDigits_eq_natDigits]
    rfl

theorem toString_int_injective : Function.Injective (toString : Int → String) := by
  intro a b h
  apply intDigits_injective
  rw [← toString_int_data, ← toString_int_data, h]

theorem x_not_mem_intDigits (a : Int) : 'x' ∉ intDigits a := by
  intro h
  match a with
  | .ofNat m =>
    have := isDigit_of_mem_natDigits h
    simp [Char.isDigit] at this
  | .negSucc m =>
    rcases List.mem_cons.mp h with h1 | h2
    · exact absurd h1 (by decide)
    · have := isDigit_of_mem_natDigits h2
      simp [Char.isDigit] at this

theorem append_split_at_x {da da' db db' : List Char}
    (ha : 'x' ∉ da) (ha' : 'x' ∉ da')
    (h : da ++ 'x' :: db = da' ++ 'x' :: db') : da = da' ∧ db = db' := by
  induction da generalizing da' with
  | nil =>
    cases da' with
    | nil => simpa using h
    | cons c cs =>
      exfalso
      simp only [List.nil_append, List.cons_append, List.cons.injEq] at h
      exact ha' (h.1 ▸ List.mem_cons_self _ _)
  | cons c cs ih =>
    cases da' with
    | nil =>
      exfalso
      simp only [List.nil_append, List.cons_append, List.cons.injEq] at h
      exact ha (h.1 ▸ List.mem_cons_self _ _)
    | cons c' cs' =>
      simp only [List.cons_append, List.cons.injEq] at h
      obtain ⟨rfl, htail⟩ := h
      have hcs : 'x' ∉ cs := fun hm => ha (List.mem_cons_of_mem _ hm)
      have hcs' : 'x' ∉ cs' := fun hm => ha' (List.mem_cons_of_mem _ hm)
      obtain ⟨h1, h2⟩ := ih hcs hcs' htail
      exact ⟨by rw [h1], h2⟩

/-- Non-commutative problem keys decompose uniquely: the rendered operands
can be recovered from the key string. -/
theorem key_operands_inj (pre : String) (a b a' b' : Int)
    (h : pre ++ toString a ++ "x" ++ toString b =
         pre ++ toString a' ++ "x" ++ toString b') : a = a' ∧ b = b' := by
  have hd : (pre ++ toString a ++ "x" ++ toString b).data =
      (pre ++ toString a' ++ "x" ++ toString b').data := by rw [h]
  simp only [String.data_append, List.append_assoc] at hd
  have hd2 := List.append_cancel_left hd
  simp only [List.singleton_append] at hd2
  obtain ⟨h1, h2⟩ := append_split_at_x
    (by rw [toString_int_data]; exact x_not_mem_intDigits a)
    (by rw [toString_int_data]; exact x_not_mem_intDigits a') hd2
  constructor
  · apply intDigits_injective
    rw [← toString_int_data, ← toString_int_data, h1]
  · apply intDigits_injective
    rw [← toString_int_data, ← toString_int_data, h2]

/-! ### Memory model lemmas -/

theorem updateSM2_easeFactor (today : Int) (r : ProblemRecord) (q : Nat) :
    MIN_EASE ≤ (updateSM2 today r q).easeFactor ∧
      (updateSM2 today r q).easeFactor ≤ MAX_EASE := by
  simp only [updateSM2]
  constructor
  · exact le_max_left _ _
  · apply max_le
    · norm_num [MIN_EASE, MAX_EASE]
    · exact min_le_left _ _

theorem updateSM2_totals (today : Int) (r : ProblemRecord) (q : Nat) :
    (updateSM2 today r q).totalCorrect = r.totalCorrect ∧
      (updateSM2 today r q).totalAttempts = r.totalAttempts := by
  simp only [updateSM2]
  split <;> exact ⟨rfl, rfl⟩

theorem jsRound_nonneg {x : Rat} (hx : 0 ≤ x) : 0 ≤ jsRound x := by
  rw [jsRound, Int.le_floor]
  push_cast
  linarith

theorem updateSM2_interval_nonneg (today : Int) (r : ProblemRecord) (q : Nat)
    (hint : 0 ≤ r.interval) (hease : MIN_EASE ≤ r.easeFactor) :
    0 ≤ (updateSM2 today r q).interval := by
  simp only [updateSM2]
  split
  · simp only []
    split
    · norm_num [INITIAL_INTERVAL]
    · split
      · norm_num [SECOND_INTERVAL]
      · apply jsRound_nonneg
        apply mul_nonneg
        · exact_mod_cast hint
        · have : (0 : Rat) < MIN_EASE := by norm_num [MIN_EASE]
          linarith
  · simp

theorem updateSM2_invariant (today : Int) (r : ProblemRecord) (q : Nat)
    (hr : RecordInvariant r) : RecordInvariant (updateSM2 today r q) := by
  obtain ⟨h1, h2, h3, h4⟩ := hr
  obtain ⟨he1, he2⟩ := updateSM2_easeFactor today r q
  obtain ⟨ht1, ht2⟩ := updateSM2_totals today r q
  exact ⟨he1, he2, by rw [ht1, ht2]; exact h3,
    updateSM2_interval_nonneg today r q h4 h1⟩

/-- C1: for every record and quality, a pass (`quality ≥ 3`) sets the
interval to 1 at `repetitions = 0`, to 3 at `repetitions = 1`, and to
`round(previous interval × easeFactor)` (ease from before this call's
adjustment) otherwise, and increments `repetitions`; a fail (`quality < 3`)
resets `repetitions` and `interval` to 0 regardless of prior state. -/
theorem c1_updateSM2_graduation_and_reset (record : ProblemRecord)
    (today : Int) (quality : Nat)
    (hq : quality ∈ ([0, 1, 3, 4, 5] : List Nat)) :
    (3 ≤ quality →
      (updateSM2 today record quality).repetitions = record.repetitions + 1 ∧
      (updateSM2 today record quality).interval =
        (if record.repetitions = 0 then 1
         else if record.repetitions = 1 then 3
         else jsRound ((record.interval : Rat) * record.easeFactor))) ∧
    (quality < 3 →
      (updateSM2 today record quality).repetitions = 0 ∧
      (updateSM2 today record quality).interval = 0) := by
  clear hq
  constructor
  · intro h3
    simp only [updateSM2, if_pos h3, INITIAL_INTERVAL, SECOND_INTERVAL]
    exact ⟨trivial, trivial⟩
  · intro h3
    rw [updateSM2, if_neg (by omega)]
    exact ⟨rfl, rfl⟩

/-- Witness for C1 at `quality = 4` and a record with `repetitions = 2`,
`interval = 10`, `easeFactor = 2.5`. -/
theorem c1_updateSM2_graduation_and_reset_witness :
    (4 : Nat) ∈ ([0, 1, 3, 4, 5] : List Nat) ∧
    ((3 ≤ 4 →
      (updateSM2 0 sampleRecord 4).repetitions = sampleRecord.repetitions + 1 ∧
      (updateSM2 0 sampleRecord 4).interval =
        (if sampleRecord.repetitions = 0 then 1
         else if sampleRecord.repetitions = 1 then 3
         else jsRound ((sampleRecord.interval : Rat) * sampleRecord.easeFactor))) ∧
    (4 < 3 →
      (updateSM2 0 sampleRecord 4).repetitions = 0 ∧
      (updateSM2 0 sampleRecord 4).interval = 0)) :=
  ⟨by decide, c1_updateSM2_graduation_and_reset sampleRecord 0 4 (by decide)⟩

/-- C2: `gradeResponse` returns 0 on timeout regardless of correctness,
1 on a non-timed-out wrong answer, and for a non-timed-out correct answer
5, 4 or 3 according to `ratio = responseTimeMs / timerLimitMs` falling in
`[0, 1/4]`, `(1/4, 1/2]` or `(1/2, ∞)`; for fixed correct, non-timed-out
responses the grade is non-increasing in the response time. -/
theorem c2_gradeResponse_cases (isCorrect : Bool)
    (responseTimeMs timerLimitMs : Nat) (timedOut : Bool)
    (hL : 0 < timerLimitMs) :
    (timedOut = true →
      gradeResponse isCorrect responseTimeMs timerLimitMs timedOut = 0) ∧
    (timedOut = false → isCorrect = false →
      gradeResponse isCorrect responseTimeMs timerLimitMs timedOut = 1) ∧
    (timedOut = false → isCorrect = true →
      (((responseTimeMs : Rat) / (timerLimitMs : Rat) ≤ 1/4 →
        gradeResponse isCorrect responseTimeMs timerLimitMs timedOut = 5) ∧
      (1/4 < (responseTimeMs : Rat) / (timerLimitMs : Rat) →
        (responseTimeMs : Rat) / (timerLimitMs : Rat) ≤ 1/2 →
        gradeResponse isCorrect responseTimeMs timerLimitMs timedOut = 4) ∧
      (1/2 < (responseTimeMs : Rat) / (timerLimitMs : Rat) →
        gradeResponse isCorrect responseTimeMs timerLimitMs timedOut = 3))) ∧
    (∀ t1 t2 : Nat, t1 ≤ t2 →
      gradeResponse true t2 timerLimitMs false ≤
        gradeResponse true t1 timerLimitMs false) := by
  refine ⟨?_, ?_, ?_, ?_⟩
  · intro h
    subst h
    rfl
  · intro h hc
    subst h
    subst hc
    rfl
  · intro h hc
    subst h
    subst hc
    simp only [gradeResponse, Bool.not_true, if_neg (Bool.false_ne_true),
      Bool.false_eq_true, if_false]
    refine ⟨fun h1 => by rw [if_pos h1], fun h1 h2 => ?_, fun h1 => ?_⟩
    · rw [if_neg (by linarith), if_pos h2]
    · rw [if_neg (by linarith), if_neg (by linarith)]
  · intro t1 t2 ht
    have hcast : (t1 : Rat) ≤ (t2 : Rat) := by exact_mod_cast ht
    have hLpos : (0 : Rat) < (timerLimitMs : Rat) := by exact_mod_cast hL
    have hr : (t1 : Rat) / (timerLimitMs : Rat) ≤
        (t2 : Rat) / (timerLimitMs : Rat) := by
      exact div_le_div_of_nonneg_right hcast hLpos.le
    simp only [gradeResponse, Bool.not_true, Bool.false_eq_true, if_false]
    split_ifs
    all_goals try norm_num
    all_goals exfalso
    all_goals push_neg at *
    all_goals linarith

/-- Witness for C2 at `timerLimitMs = 10000`, a correct answer in 1000 ms. -/
theorem c2_gradeResponse_cases_witness :
    0 < (10000 : Nat) ∧
    (false = false → true = true →
      ((((1000 : Nat) : Rat) / ((10000 : Nat) : Rat) ≤ 1/4 →
        gradeResponse true 1000 10000 false = 5) ∧
      (1/4 < ((1000 : Nat) : Rat) / ((10000 : Nat) : Rat) →
        ((1000 : Nat) : Rat) / ((10000 : Nat) : Rat) ≤ 1/2 →
        gradeResponse true 1000 10000 false = 4) ∧
      (1/2 < ((1000 : Nat) : Rat) / ((10000 : Nat) : Rat) →
        gradeResponse true 1000 10000 false = 3))) :=
  ⟨by decide, (c2_gradeResponse_cases true 1000 10000 false (by decide)).2.2.1⟩

/-- C3: the record invariant (ease within `[1.3, 3.0]`,
`totalCorrect ≤ totalAttempts`, `interval ≥ 0`) is preserved by
`recordAttempt` for every flag combination, and by `updateSM2` for every
quality in `{0, 1, 3, 4, 5}`. -/
theorem c3_invariant_preservation (record : ProblemRecord) (today now : Int)
    (isCorrect : Bool) (responseTimeMs timerLimitMs : Nat) (timedOut : Bool)
    (quality : Nat) (hr : RecordInvariant record)
    (hq : quality ∈ ([0, 1, 3, 4, 5] : List Nat)) :
    RecordInvariant (recordAttempt today now record isCorrect responseTimeMs
      timerLimitMs timedOut).2 ∧
    RecordInvariant (updateSM2 today record quality) := by
  clear hq
  constructor
  · rw [recordAttempt]
    apply updateSM2_invariant
    obtain ⟨h1, h2, h3, h4⟩ := hr
    split
    · exact ⟨h1, h2, Nat.succ_le_succ h3, h4⟩
    · exact ⟨h1, h2, le_trans h3 (Nat.le_succ _), h4⟩
  · exact updateSM2_invariant today record quality hr

/-- Witness for C3 at a concrete valid record, a correct 1000 ms answer and
`quality = 5`. -/
theorem c3_invariant_preservation_witness :
    RecordInvariant sampleRecord ∧
    (5 : Nat) ∈ ([0, 1, 3, 4, 5] : List Nat) ∧
    (RecordInvariant (recordAttempt 0 0 sampleRecord true 1000 10000
      false).2 ∧
    RecordInvariant (updateSM2 0 sampleRecord 5)) :=
  ⟨by norm_num [RecordInvariant, sampleRecord, MIN_EASE, MAX_EASE],
    by decide,
    c3_invariant_preservation sampleRecord 0 0 true 1000 10000 false 5
      (by norm_num [RecordInvariant, sampleRecord, MIN_EASE, MAX_EASE])
      (by decide)⟩

theorem canonKey_sub_eq (a b : Int) : canonicalizeProblemKey .sub a b =
    ("sub" ++ ":") ++ toString a ++ "x" ++ toString b := rfl

theorem canonKey_div_eq (a b : Int) : canonicalizeProblemKey .div a b =
    ("div" ++ ":") ++ toString a ++ "x" ++ toString b := rfl

/-- C9: `canonicalizeProblemKey` is symmetric in its operands for the
commutative operations (`add`, `mul`), whose key is built from
`min(a,b)` and `max(a,b)`, while for `sub` and `div` the key preserves
operand order, so swapping distinct operands yields a distinct key. -/
theorem c9_canonicalizeProblemKey_symmetry :
    (∀ a b : Int,
      canonicalizeProblemKey .add a b = canonicalizeProblemKey .add b a ∧
      canonicalizeProblemKey .add a b =
        "add" ++ ":" ++ toString (min a b) ++ "x" ++ toString (max a b)) ∧
    (∀ a b : Int,
      canonicalizeProblemKey .mul a b = canonicalizeProblemKey .mul b a ∧
      canonicalizeProblemKey .mul a b =
        "mul" ++ ":" ++ toString (min a b) ++ "x" ++ toString (max a b)) ∧
    (∀ a b : Int, a ≠ b →
      canonicalizeProblemKey .sub a b ≠ canonicalizeProblemKey .sub b a ∧
      canonicalizeProblemKey .div a b ≠ canonicalizeProblemKey .div b a) := by
  refine ⟨fun a b => ⟨?_, rfl⟩, fun a b => ⟨?_, rfl⟩, fun a b hne => ⟨?_, ?_⟩⟩
  · show "add" ++ ":" ++ toString (min a b) ++ "x" ++ toString (max a b) =
      "add" ++ ":" ++ toString (min b a) ++ "x" ++ toString (max b a)
    rw [min_comm a b, max_comm a b]
  · show "mul" ++ ":" ++ toString (min a b) ++ "x" ++ toString (max a b) =
      "mul" ++ ":" ++ toString (min b a) ++ "x" ++ toString (max b a)
    rw [min_comm a b, max_comm a b]
  · intro heq
    rw [canonKey_sub_eq, canonKey_sub_eq] at heq
    exact hne (key_operands_inj _ a b b a heq).1
  · intro heq
    rw [canonKey_div_eq, canonKey_div_eq] at heq
    exact hne (key_operands_inj _ a b b a heq).1

/-- Witness for C9 at operands 3 and 7. -/
theorem c9_canonicalizeProblemKey_symmetry_witness :
    ((3 : Int) ≠ 7) ∧
    (canonicalizeProblemKey .sub 3 7 ≠ canonicalizeProblemKey .sub 7 3 ∧
     canonicalizeProblemKey .div 3 7 ≠ canonicalizeProblemKey .div 7 3) :=
  ⟨by decide, c9_canonicalizeProblemKey_symmetry.2.2 3 7 (by decide)⟩

theorem mem_enabledOpsOf (s : Settings) (op : Op) :
    op ∈ enabledOpsOf s ↔ (s.operationRanges op).enabled = true := by
  rw [enabledOpsOf, List.mem_filter]
  constructor
  · rintro ⟨-, h⟩
    exact h
  · intro h
    exact ⟨by cases op <;> simp [allOps], h⟩

/-- C7: `getDrillProblems` returns exactly the records of enabled
operations with at least two attempts and accuracy below 0.7 or ease below
1.8, sorted ascending by accuracy; a record with a single attempt is
excluded no matter its accuracy. -/
theorem c7_getDrillProblems_spec (records : List ProblemRecord) (s : Settings) :
    (∀ r, r ∈ getDrillProblems records s ↔
      r ∈ records ∧ (s.operationRanges r.operation).enabled = true ∧
        2 ≤ r.totalAttempts ∧ (accOf r < 7/10 ∨ r.easeFactor < 9/5)) ∧
    List.Sorted accLE (getDrillProblems records s) ∧
    (∀ r, r.totalAttempts = 1 → r ∉ getDrillProblems records s) := by
  have hmem : ∀ r, r ∈ getDrillProblems records s ↔
      r ∈ records ∧ (s.operationRanges r.operation).enabled = true ∧
        2 ≤ r.totalAttempts ∧ (accOf r < 7/10 ∨ r.easeFactor < 9/5) := by
    intro r
    rw [getDrillProblems, (List.perm_insertionSort accLE _).mem_iff,
      List.mem_filter]
    simp only [Bool.and_eq_true, Bool.or_eq_true, decide_eq_true_eq,
      mem_enabledOpsOf, and_assoc]
  refine ⟨hmem, ?_, ?_⟩
  · exact List.sorted_insertionSort accLE _
  · intro r h1 hin
    have := ((hmem r).mp hin).2.2.1
    omega

/-- Witness for C7: a record with one attempt and accuracy 0 is excluded
from the drill pool built over the singleton record list. -/
theorem c7_getDrillProblems_spec_witness :
    (⟨"add:2x3", .add, 2, 3, 5, 5/2, 0, 0, none, 1, 0, 9000, none, none, 0,
        0⟩ : ProblemRecord).totalAttempts = 1 ∧
    (⟨"add:2x3", .add, 2, 3, 5, 5/2, 0, 0, none, 1, 0, 9000, none, none, 0,
        0⟩ : ProblemRecord) ∉
      getDrillProblems
        [⟨"add:2x3", .add, 2, 3, 5, 5/2, 0, 0, none, 1, 0, 9000, none, none,
          0, 0⟩] allEnabledSettings :=
  ⟨rfl, (c7_getDrillProblems_spec _ allEnabledSettings).2.2 _ rfl⟩

/-! ### Selection pipeline lemmas -/

theorem mem_applySoftPenalty (scored : List ScoredItem)
    (attempts : List Attempt) :
    ∀ s ∈ applySoftPenalty scored attempts, ∃ s0 ∈ scored,
      s.record = s0.record ∧
        (s.score = s0.score ∨ s.score = s0.score * (1/2)) := by
  intro s hs
  rw [applySoftPenalty] at hs
  split at hs
  · obtain ⟨s0, hs0, heq⟩ := List.mem_map.mp hs
    subst heq
    split
    · exact ⟨s0, hs0, rfl, Or.inr rfl⟩
    · exact ⟨s0, hs0, rfl, Or.inl rfl⟩
  · exact ⟨s, hs, rfl, Or.inl rfl⟩

theorem mem_applyInterleaving (scored : List ScoredItem)
    (attempts : List Attempt) :
    ∀ s ∈ applyInterleaving scored attempts, ∃ s0 ∈ scored,
      s.record = s0.record ∧
        (s.score = s0.score ∨ s.score = s0.score * (1/2)) := by
  intro s hs
  rw [applyInterleaving] at hs
  split at hs
  · exact ⟨s, hs, rfl, Or.inl rfl⟩
  · split at hs
    · split at hs
      · split at hs
        · exact ⟨s, (List.mem_filter.mp hs).1, rfl, Or.inl rfl⟩
        · exact ⟨s, hs, rfl, Or.inl rfl⟩
      · exact mem_applySoftPenalty _ _ s hs
    · exact mem_applySoftPenalty _ _ s hs

theorem mem_balanceOperations (scored : List ScoredItem)
    (attempts : List Attempt) (ops : List Op) :
    ∀ s ∈ balanceOperations scored attempts ops, ∃ s0 ∈ scored,
      s.record = s0.record ∧
        (s.score = s0.score ∨ s.score = s0.score * (3/2) ∨
          s.score = s0.score * (6/10)) := by
  intro s hs
  rw [balanceOperations] at hs
  split at hs
  · exact ⟨s, hs, rfl, Or.inl rfl⟩
  · obtain ⟨s0, hs0, heq⟩ := List.mem_map.mp hs
    subst heq
    split
    · split
      · exact ⟨s0, hs0, rfl, Or.inr (Or.inl rfl)⟩
      · split
        · exact ⟨s0, hs0, rfl, Or.inr (Or.inr rfl)⟩
        · exact ⟨s0, hs0, rfl, Or.inl rfl⟩
    · exact ⟨s0, hs0, rfl, Or.inl rfl⟩

theorem mem_of_weightedRandomGo {r : Rat} {items : List ScoredItem}
    {x : ScoredItem} (h : weightedRandomGo r items = some x) : x ∈ items := by
  induction items generalizing r with
  | nil => simp [weightedRandomGo] at h
  | cons a rest ih =>
    rw [weightedRandomGo] at h
    split at h
    · cases h
      exact List.mem_cons_self _ _
    · exact List.mem_cons_of_mem _ (ih h)

theorem mem_of_weightedRandom {u : Rat} {items : List ScoredItem}
    {x : ScoredItem} (h : weightedRandom u items = some x) : x ∈ items := by
  rw [weightedRandom] at h
  split at h
  · cases h
    exact mem_of_weightedRandomGo (by assumption)
  · exact List.mem_of_getLast?_eq_some h

theorem mem_selectionScoredList (s : Settings) (pool : List ProblemRecord)
    (persisted : String → Option ProblemRecord) (today : Int)
    (attempts : List Attempt) (phase : String) :
    ∀ item ∈ selectionScoredList s pool persisted today attempts phase,
      ∃ r ∈ phaseFilter phase (candidatesOf s pool persisted),
        item.record = r ∧ ∃ k : Rat, 0 < k ∧
          item.score = calculatePriority today r attempts attempts.length * k := by
  intro item hitem
  rw [selectionScoredList] at hitem
  have h1 : item ∈ List.insertionSort scoreGE
      (balanceOperations (applyInterleaving
        ((phaseFilter phase (candidatesOf s pool persisted)).map
          (fun r => ⟨r, calculatePriority today r attempts attempts.length⟩))
        attempts) attempts (enabledOpsOf s)) := List.mem_of_mem_take hitem
  have h2 := (List.perm_insertionSort scoreGE _).mem_iff.mp h1
  obtain ⟨s1, hs1, hrec1, hsc1⟩ := mem_balanceOperations _ _ _ item h2
  obtain ⟨s0, hs0, hrec0, hsc0⟩ := mem_applyInterleaving _ _ s1 hs1
  obtain ⟨r, hr, heq⟩ := List.mem_map.mp hs0
  refine ⟨r, hr, by rw [hrec1, hrec0, ← heq], ?_⟩
  have hscr : s0.score = calculatePriority today r attempts attempts.length := by
    rw [← heq]
  rcases hsc1 with h | h | h <;> rcases hsc0 with h' | h'
  · exact ⟨1, by norm_num, by rw [h, h', hscr, mul_one]⟩
  · exact ⟨1/2, by norm_num, by rw [h, h', hscr]⟩
  · exact ⟨3/2, by norm_num, by rw [h, h', hscr]⟩
  · exact ⟨(1/2) * (3/2), by norm_num, by rw [h, h', hscr, mul_assoc]⟩
  · exact ⟨6/10, by norm_num, by rw [h, h', hscr]⟩
  · exact ⟨(1/2) * (6/10), by norm_num, by rw [h, h', hscr, mul_assoc]⟩

/-- C4: `calculatePriority` never returns a negative score, and after the
interleaving 0.5x multiplier and the balancing 1.5x/0.6x multipliers every
item of the top-10 list handed to the weighted-random pick still has a
non-negative score. -/
theorem c4_priority_nonneg (today : Int) (r : ProblemRecord)
    (attempts : List Attempt) (n : Nat) (s : Settings)
    (pool : List ProblemRecord) (persisted : String → Option ProblemRecord)
    (phase : String) :
    0 ≤ calculatePriority today r attempts n ∧
    ∀ item, item ∈ selectionScoredList s pool persisted today attempts phase →
      0 ≤ item.score := by
  constructor
  · exact le_max_left 0 _
  · intro item hitem
    obtain ⟨r0, hr0, hrec, k, hk, hsc⟩ :=
      mem_selectionScoredList s pool persisted today attempts phase item hitem
    rw [hsc]
    exact mul_nonneg (le_max_left 0 _) hk.le

/-- Witness for C4: the single scored candidate of a one-record pool is in
the list handed to the weighted-random pick, with non-negative score. -/
theorem c4_priority_nonneg_witness :
    (⟨sampleRecord, calculatePriority 0 sampleRecord [] 0⟩ : ScoredItem) ∈
      selectionScoredList allEnabledSettings [sampleRecord] (fun _ => none)
        0 [] "core" ∧
    0 ≤ (⟨sampleRecord, calculatePriority 0 sampleRecord [] 0⟩ :
      ScoredItem).score := by
  have hmem : (⟨sampleRecord, calculatePriority 0 sampleRecord [] 0⟩ :
      ScoredItem) ∈ selectionScoredList allEnabledSettings [sampleRecord]
        (fun _ => none) 0 [] "core" := by
    simp [selectionScoredList, candidatesOf, phaseFilter, applyInterleaving,
      balanceOperations, enabledOpsOf, allOps, sampleRecord,
      List.insertionSort, List.orderedInsert]
  exact ⟨hmem, (c4_priority_nonneg 0 sampleRecord [] 0 allEnabledSettings
    [sampleRecord] (fun _ => none) "core").2 _ hmem⟩

/-! ### Priority scorer lemmas -/

theorem lastIndexOfKey_nil (key : String) : lastIndexOfKey key [] = -1 := rfl

theorem lastIndexOfKey_cons (key : String) (a : Attempt) (rest : List Attempt) :
    lastIndexOfKey key (a :: rest) =
      (if 0 ≤ lastIndexOfKey key rest then lastIndexOfKey key rest + 1
       else if a.problemKey == key then 0 else -1) := rfl

theorem lastIndexOfKey_eq_neg_one {key : String} {attempts : List Attempt}
    (h : ∀ a ∈ attempts, a.problemKey ≠ key) :
    lastIndexOfKey key attempts = -1 := by
  induction attempts with
  | nil => rfl
  | cons a rest ih =>
    rw [lastIndexOfKey_cons, ih (fun x hx => h x (List.mem_cons_of_mem _ hx))]
    rw [if_neg (by norm_num)]
    rw [if_neg (by simp [h a (List.mem_cons_self _ _)])]

theorem sessionWrongCount_eq_zero {key : String} {attempts : List Attempt}
    (h : ∀ a ∈ attempts, a.problemKey = key → a.isCorrect = true) :
    sessionWrongCount key attempts = 0 := by
  rw [sessionWrongCount, List.length_eq_zero, List.filter_eq_nil]
  intro a ha
  by_cases hk : a.problemKey = key
  · simp [hk, h a ha hk]
  · simp [hk]

/-- C6: a never-attempted record with no review date strictly outscores a
fully mastered record (10/10 correct, ease 3.0, due tomorrow) under any
session history consistent with both records. -/
theorem c6_never_seen_beats_mastered (today : Int) (r1 r2 : ProblemRecord)
    (atts : List Attempt) (n1 n2 : Nat)
    (h1a : r1.totalAttempts = 0) (h1n : r1.nextReviewDate = none)
    (h1e : r1.easeFactor ≤ MAX_EASE)
    (h2a : r2.totalAttempts = 10) (h2c : r2.totalCorrect = 10)
    (h2e : r2.easeFactor = 3) (h2n : r2.nextReviewDate = some (today + 1))
    (hc1 : ∀ a ∈ atts, a.problemKey ≠ r1.key)
    (hc2 : ∀ a ∈ atts, a.problemKey = r2.key → a.isCorrect = true) :
    calculatePriority today r2 atts n2 < calculatePriority today r1 atts n1 := by
  have hw1 : sessionWrongCount r1.key atts = 0 :=
    sessionWrongCount_eq_zero (fun a ha hk => absurd hk (hc1 a ha))
  have hw2 : sessionWrongCount r2.key atts = 0 := sessionWrongCount_eq_zero hc2
  have hL1 : lastIndexOfKey r1.key atts = -1 := lastIndexOfKey_eq_neg_one hc1
  have he : r1.easeFactor ≤ 3 := by rwa [MAX_EASE] at h1e
  have hr1 : 70 ≤ calculatePriority today r1 atts n1 := by
    simp only [calculatePriority, h1n, h1a, hw1, hL1, MAX_EASE]
    norm_num
    linarith
  have hr2 : calculatePriority today r2 atts n2 ≤ 60 := by
    simp only [calculatePriority, h2n, h2a, h2c, h2e, hw2, MAX_EASE,
      Int.add_one_le_iff, lt_self_iff_false, if_false]
    norm_num
    split_ifs <;> try linarith
    all_goals
      have hq : ((n2 : Rat) - ((lastIndexOfKey r2.key atts : Int) : Rat) - 1) < 5 := by
        exact_mod_cast ‹(n2 : Int) - lastIndexOfKey r2.key atts - 1 < 5›
    all_goals linarith
  linarith

/-- Witness for C6 with an empty session on day 0. -/
theorem c6_never_seen_beats_mastered_witness :
    neverSeenRecord.totalAttempts = 0 ∧
    masteredRecord.totalCorrect = 10 ∧
    calculatePriority 0 masteredRecord [] 0 <
      calculatePriority 0 neverSeenRecord [] 0 :=
  ⟨rfl, rfl,
    c6_never_seen_beats_mastered 0 neverSeenRecord masteredRecord [] 0 0
      rfl rfl (by norm_num [neverSeenRecord, MAX_EASE]) rfl rfl rfl rfl
      (fun a ha => absurd ha (List.not_mem_nil a))
      (fun a ha => absurd ha (List.not_mem_nil a))⟩

theorem generateRandomProblem_zero (s : Settings) (rng : Nat → Rat)
    (i : Nat) (op : Op) : generateRandomProblem s rng i 0 op = none := rfl

theorem generateRandomProblem_add (s : Settings) (rng : Nat → Rat)
    (i fuel : Nat) :
    generateRandomProblem s rng i (fuel + 1) .add =
      some ⟨.add, genA s rng i .add, genB s rng i .add,
        genA s rng i .add + genB s rng i .add,
        canonicalizeProblemKey .add (genA s rng i .add) (genB s rng i .add)⟩ :=
  rfl

theorem generateRandomProblem_mul (s : Settings) (rng : Nat → Rat)
    (i fuel : Nat) :
    generateRandomProblem s rng i (fuel + 1) .mul =
      some ⟨.mul, genA s rng i .mul, genB s rng i .mul,
        genA s rng i .mul * genB s rng i .mul,
        canonicalizeProblemKey .mul (genA s rng i .mul) (genB s rng i .mul)⟩ :=
  rfl

theorem generateRandomProblem_sub (s : Settings) (rng : Nat → Rat)
    (i fuel : Nat) :
    generateRandomProblem s rng i (fuel + 1) .sub =
      (if max (genA s rng i .sub) (genB s rng i .sub) =
          min (genA s rng i .sub) (genB s rng i .sub)
       then generateRandomProblem s rng (i + 2) fuel .sub
       else some ⟨.sub, max (genA s rng i .sub) (genB s rng i .sub),
         min (genA s rng i .sub) (genB s rng i .sub),
         max (genA s rng i .sub) (genB s rng i .sub) -
           min (genA s rng i .sub) (genB s rng i .sub),
         canonicalizeProblemKey .sub
           (max (genA s rng i .sub) (genB s rng i .sub))
           (min (genA s rng i .sub) (genB s rng i .sub))⟩) := rfl

theorem generateRandomProblem_div (s : Settings) (rng : Nat → Rat)
    (i fuel : Nat) :
    generateRandomProblem s rng i (fuel + 1) .div =
      some ⟨.div,
        randInt (rng (i + 2)) (s.operationRanges .div).minB
            (s.operationRanges .div).maxB *
          randInt (rng (i + 3)) (s.operationRanges .div).minA
            (s.operationRanges .div).maxA,
        randInt (rng (i + 2)) (s.operationRanges .div).minB
          (s.operationRanges .div).maxB,
        randInt (rng (i + 3)) (s.operationRanges .div).minA
          (s.operationRanges .div).maxA,
        canonicalizeProblemKey .div
          (randInt (rng (i + 2)) (s.operationRanges .div).minB
              (s.operationRanges .div).maxB *
            randInt (rng (i + 3)) (s.operationRanges .div).minA
              (s.operationRanges .div).maxA)
          (randInt (rng (i + 2)) (s.operationRanges .div).minB
            (s.operationRanges .div).maxB)⟩ := rfl

/-- C10: every problem returned by `generateRandomProblem` carries the
exact arithmetic answer for its operation: addition and multiplication
answers are the true sum/product, subtraction operands differ with a
strictly positive answer (resampling on equal draws), and division
dividends equal divisor times quotient, so division is always exact. -/
theorem c10_generateRandomProblem_exact (s : Settings) (rng : Nat → Rat)
    (i fuel : Nat) (op : Op) (p : Problem)
    (h : generateRandomProblem s rng i fuel op = some p) :
    p.operation = op ∧
    (op = .add → p.answer = p.a + p.b) ∧
    (op = .sub → p.answer = p.a - p.b ∧ p.a ≠ p.b ∧ 0 < p.answer) ∧
    (op = .mul → p.answer = p.a * p.b) ∧
    (op = .div → p.a = p.b * p.answer) := by
  induction fuel generalizing i with
  | zero =>
    rw [generateRandomProblem_zero] at h
    cases h
  | succ f ih =>
    cases op with
    | add =>
      rw [generateRandomProblem_add, Option.some.injEq] at h
      subst h
      refine ⟨rfl, fun _ => rfl, ?_, ?_, ?_⟩ <;> exact fun hx => nomatch hx
    | mul =>
      rw [generateRandomProblem_mul, Option.some.injEq] at h
      subst h
      refine ⟨rfl, ?_, ?_, fun _ => rfl, ?_⟩ <;> exact fun hx => nomatch hx
    | div =>
      rw [generateRandomProblem_div, Option.some.injEq] at h
      subst h
      refine ⟨rfl, ?_, ?_, ?_, fun _ => rfl⟩ <;> exact fun hx => nomatch hx
    | sub =>
      rw [generateRandomProblem_sub] at h
      split at h
      · exact ih (i + 2) h
      · next hne =>
        rw [Option.some.injEq] at h
        subst h
        refine ⟨rfl, ?_, fun _ => ⟨rfl, hne, ?_⟩, ?_, ?_⟩
        · exact fun hx => nomatch hx
        · exact sub_pos.mpr
            (lt_of_le_of_ne min_le_max (fun hc => hne hc.symm))
        · exact fun hx => nomatch hx
        · exact fun hx => nomatch hx

/-- Witness for C10: with an all-zero random stream and fuel 1, addition
yields operands 2 and 2 with answer 4. -/
theorem c10_generateRandomProblem_exact_witness :
    generateRandomProblem allEnabledSettings (fun _ => 0) 0 1 .add =
      some ⟨.add, 2, 2, 4, canonicalizeProblemKey .add 2 2⟩ ∧
    (Op.add = Op.add →
      (⟨.add, 2, 2, 4, canonicalizeProblemKey .add 2 2⟩ : Problem).answer =
        (⟨.add, 2, 2, 4, canonicalizeProblemKey .add 2 2⟩ : Problem).a +
        (⟨.add, 2, 2, 4, canonicalizeProblemKey .add 2 2⟩ : Problem).b) := by
  have hgen : generateRandomProblem allEnabledSettings (fun _ => 0) 0 1 .add =
      some ⟨.add, 2, 2, 4, canonicalizeProblemKey .add 2 2⟩ := by
    rw [generateRandomProblem]
    norm_num [randInt, allEnabledSettings]
  exact ⟨hgen, (c10_generateRandomProblem_exact _ _ _ _ _ _ hgen).2.1⟩

theorem applySoftPenalty_ne_nil (scored : List ScoredItem)
    (attempts : List Attempt) (h : scored ≠ []) :
    applySoftPenalty scored attempts ≠ [] := by
  rw [applySoftPenalty]
  split
  · simpa using h
  · exact h

theorem applyInterleaving_ne_nil (scored : List ScoredItem)
    (attempts : List Attempt) (h : scored ≠ []) :
    applyInterleaving scored attempts ≠ [] := by
  rw [applyInterleaving]
  split
  · exact h
  · split
    · split
      · split
        · next hlen =>
          intro hc
          rw [hc] at hlen
          simp at hlen
        · exact h
      · exact applySoftPenalty_ne_nil _ _ h
    · exact applySoftPenalty_ne_nil _ _ h

theorem balanceOperations_ne_nil (scored : List ScoredItem)
    (attempts : List Attempt) (ops : List Op) (h : scored ≠ []) :
    balanceOperations scored attempts ops ≠ [] := by
  rw [balanceOperations]
  split
  · exact h
  · simpa using h

theorem phaseFilter_ne_nil (phase : String) (candidates : List ProblemRecord)
    (h : candidates ≠ []) : phaseFilter phase candidates ≠ [] := by
  rw [phaseFilter]
  split
  · split
    · next hlen =>
      intro hc
      rw [hc] at hlen
      simp at hlen
    · exact h
  · split
    · split
      · next hlen =>
        intro hc
        rw [hc] at hlen
        simp at hlen
      · exact h
    · exact h

theorem selectionScoredList_ne_nil (s : Settings) (pool : List ProblemRecord)
    (persisted : String → Option ProblemRecord) (today : Int)
    (attempts : List Attempt) (phase : String)
    (h : candidatesOf s pool persisted ≠ []) :
    selectionScoredList s pool persisted today attempts phase ≠ [] := by
  rw [selectionScoredList]
  have h1 : phaseFilter phase (candidatesOf s pool persisted) ≠ [] :=
    phaseFilter_ne_nil _ _ h
  have h2 : (phaseFilter phase (candidatesOf s pool persisted)).map
      (fun r => (⟨r, calculatePriority today r attempts attempts.length⟩ :
        ScoredItem)) ≠ [] := by simpa using h1
  have h3 := applyInterleaving_ne_nil _ attempts h2
  have h4 := balanceOperations_ne_nil _ attempts (enabledOpsOf s) h3
  intro hc
  rcases List.take_eq_nil_iff.mp hc with h10 | hsort
  · exact absurd h10 (by norm_num)
  · apply h4
    have := congrArg List.length hsort
    rw [List.length_insertionSort] at this
    exact List.length_eq_zero.mp this

theorem weightedRandom_isSome (u : Rat) (items : List ScoredItem)
    (h : items ≠ []) : ∃ x, weightedRandom u items = some x := by
  rw [weightedRandom]
  cases hgo : weightedRandomGo
      (u * items.foldl (fun s item => s + max 1 item.score) 0) items with
  | some x => exact ⟨x, rfl⟩
  | none =>
    cases hl : items.getLast? with
    | some y => exact ⟨y, rfl⟩
    | none => exact absurd (List.getLast?_eq_none_iff.mp hl) h

/-- C8: `selectNextProblem` returns `none` exactly when no operation is
enabled; with at least one enabled operation and an empty candidate pool it
falls back to `generateRandomProblem` on a uniformly chosen enabled
operation (given in-range random draws and a succeeding generator, the
formal counterpart of non-degenerate configured ranges). -/
theorem c8_selectNextProblem_null_iff (s : Settings)
    (pool : List ProblemRecord) (persisted : String → Option ProblemRecord)
    (today : Int) (rng : Nat → Rat) (fuel : Nat) (uPick : Rat)
    (attempts : List Attempt) (phase : String)
    (hr0 : 0 ≤ rng 0 ∧ rng 0 < 1)
    (hgen : ∀ op, op ∈ enabledOpsOf s →
      ∃ p, generateRandomProblem s rng 1 fuel op = some p) :
    (selectNextProblem s pool persisted today rng fuel uPick attempts phase =
        none ↔ enabledOpsOf s = []) ∧
    (enabledOpsOf s ≠ [] → candidatesOf s pool persisted = [] →
      ∃ op, op ∈ enabledOpsOf s ∧
        selectNextProblem s pool persisted today rng fuel uPick attempts
          phase = generateRandomProblem s rng 1 fuel op) := by
  by_cases hE : enabledOpsOf s = []
  · refine ⟨?_, fun hne _ => absurd hE hne⟩
    rw [selectNextProblem, if_pos (by rw [hE]; rfl)]
    exact ⟨fun _ => hE, fun _ => rfl⟩
  · have hElen : ¬(enabledOpsOf s).length = 0 := fun hc =>
      hE (List.length_eq_zero.mp hc)
    by_cases hC : candidatesOf s pool persisted = []
    · have hidx0 : (0 : Int) ≤ ⌊rng 0 * ((enabledOpsOf s).length : Rat)⌋ := by
        apply Int.le_floor.mpr
        push_cast
        exact mul_nonneg hr0.1 (by positivity)
      have hlenpos : (0 : Rat) < ((enabledOpsOf s).length : Rat) := by
        have := Nat.pos_of_ne_zero hElen
        exact_mod_cast this
      have hfl : ⌊rng 0 * ((enabledOpsOf s).length : Rat)⌋ <
          ((enabledOpsOf s).length : Int) := by
        apply Int.floor_lt.mpr
        push_cast
        nlinarith [hr0.2]
      have hlt : (⌊rng 0 * ((enabledOpsOf s).length : Rat)⌋ : Int).toNat <
          (enabledOpsOf s).length := by omega
      have hop : (enabledOpsOf s).get?
          (⌊rng 0 * ((enabledOpsOf s).length : Rat)⌋ : Int).toNat =
          some ((enabledOpsOf s).get ⟨_, hlt⟩) := List.get?_eq_get hlt
      have hmemop : (enabledOpsOf s).get ⟨_, hlt⟩ ∈ enabledOpsOf s :=
        List.get_mem _ _ _
      have hres : selectNextProblem s pool persisted today rng fuel uPick
          attempts phase = generateRandomProblem s rng 1 fuel
            ((enabledOpsOf s).get ⟨_, hlt⟩) := by
        rw [selectNextProblem, if_neg hElen, if_pos (by rw [hC]; rfl),
          if_pos hidx0, hop]
      refine ⟨?_, fun _ _ => ⟨_, hmemop, hres⟩⟩
      constructor
      · intro hc
        rw [hres] at hc
        obtain ⟨p, hp⟩ := hgen _ hmemop
        rw [hp] at hc
        cases hc
      · intro hc
        exact absurd hc hE
    · have hClen : ¬(candidatesOf s pool persisted).length = 0 := fun hc =>
        hC (List.length_eq_zero.mp hc)
      obtain ⟨sel, hsel⟩ := weightedRandom_isSome uPick _
        (selectionScoredList_ne_nil s pool persisted today attempts phase hC)
      refine ⟨?_, fun _ hc => absurd hc hC⟩
      rw [selectNextProblem, if_neg hElen, if_neg hClen, hsel]
      constructor
      · intro hc
        exact Option.noConfusion hc
      · intro hc
        exact absurd hc hE

/-- Witness for C8: only addition enabled, empty pool, all-zero draws. -/
theorem c8_selectNextProblem_null_iff_witness :
    (0 ≤ (0 : Rat) ∧ (0 : Rat) < 1) ∧
    (selectNextProblem addOnlySettings [] (fun _ => none) 0 (fun _ => 0) 1 0
        [] "core" = none ↔ enabledOpsOf addOnlySettings = []) := by
  have hgen : ∀ op, op ∈ enabledOpsOf addOnlySettings →
      ∃ p, generateRandomProblem addOnlySettings (fun _ => 0) 1 1 op =
        some p := by
    intro op hop
    have hadd : op = .add := by
      cases op <;> simp_all [enabledOpsOf, allOps, addOnlySettings]
    subst hadd
    exact ⟨_, generateRandomProblem_add _ _ _ _⟩
  exact ⟨by norm_num,
    (c8_selectNextProblem_null_iff addOnlySettings [] (fun _ => none) 0
      (fun _ => 0) 1 0 [] "core" (by norm_num) hgen).1⟩

theorem phaseFilter_nil (phase : String) : phaseFilter phase [] = [] := by
  rw [phaseFilter]
  split
  · split <;> rfl
  · split
    · split <;> rfl
    · rfl

theorem applyInterleaving_hard_blocked (scored : List ScoredItem)
    (l : List Attempt) (a1 a2 : Attempt)
    (hsame : a1.operation = a2.operation)
    (hex : ∃ x ∈ scored, x.record.operation ≠ a1.operation) :
    ∀ x ∈ applyInterleaving scored (l ++ [a1, a2]),
      x.record.operation ≠ a1.operation := by
  intro x hx
  rw [applyInterleaving, if_neg (by simp)] at hx
  have hdrop : (l ++ [a1, a2]).drop ((l ++ [a1, a2]).length - 2) =
      [a1, a2] := by
    rw [List.length_append]
    have h2 : l.length + ([a1, a2] : List Attempt).length - 2 = l.length := by
      simp
    rw [h2]
    exact List.drop_left l [a1, a2]
  rw [hdrop] at hx
  have hx2 : x ∈ (if a1.operation = a2.operation then
      (if 0 < (scored.filter
          (fun z => !(z.record.operation == a1.operation))).length
       then scored.filter (fun z => !(z.record.operation == a1.operation))
       else scored)
    else applySoftPenalty scored (l ++ [a1, a2])) := hx
  rw [if_pos hsame] at hx2
  obtain ⟨x0, hx0, hne0⟩ := hex
  have hx0f : x0 ∈ scored.filter
      (fun z => !(z.record.operation == a1.operation)) := by
    rw [List.mem_filter]
    exact ⟨hx0, by simpa using hne0⟩
  rw [if_pos (List.length_pos.mpr (List.ne_nil_of_mem hx0f))] at hx2
  have := (List.mem_filter.mp hx2).2
  simpa using this

/-- C5 (counterexample to the claim as stated): with phase `warmup`, a
session ending in two multiplication attempts and a candidate pool holding
both multiplication and addition records, `selectNextProblem` still returns
a multiplication problem, because warmup phase filtering removes every
addition candidate before the interleaving constraint runs. -/
theorem c5_interleaving_counterexample :
    ([mulAttempt1, mulAttempt2] = [] ++ [mulAttempt1, mulAttempt2] ∧
      mulAttempt1.operation = .mul ∧ mulAttempt2.operation = .mul) ∧
    (∃ r ∈ candidatesOf addMulSettings warmupPool (fun _ => none),
      r.operation = .add) ∧
    (∃ r ∈ candidatesOf addMulSettings warmupPool (fun _ => none),
      r.operation = .mul) ∧
    ∃ p, selectNextProblem addMulSettings warmupPool (fun _ => none) 0
        (fun _ => 0) 1 0 [mulAttempt1, mulAttempt2] "warmup" = some p ∧
      p.operation = .mul := by
  have hCand : candidatesOf addMulSettings warmupPool (fun _ => none) =
      warmupPool := rfl
  have hpf : phaseFilter "warmup" warmupPool =
      [mulWarmRec "mul:2x2", mulWarmRec "mul:2x3", mulWarmRec "mul:2x4",
       mulWarmRec "mul:2x5", mulWarmRec "mul:2x6"] := by
    rw [phaseFilter, if_pos rfl]
    norm_num [warmupPool, mulWarmRec, addHardRec, List.filter_cons]
  have hall : ∀ r ∈ phaseFilter "warmup"
      (candidatesOf addMulSettings warmupPool (fun _ => none)),
      r.operation = .mul := by
    rw [hCand, hpf]
    intro r hr
    simp only [List.mem_cons, List.not_mem_nil, or_false] at hr
    rcases hr with rfl | rfl | rfl | rfl | rfl <;> rfl
  have hCne : candidatesOf addMulSettings warmupPool (fun _ => none) ≠ [] := by
    rw [hCand, warmupPool]
    simp
  have hClen : ¬(candidatesOf addMulSettings warmupPool
      (fun _ => none)).length = 0 :=
    fun hc => hCne (List.length_eq_zero.mp hc)
  have hElen : ¬(enabledOpsOf addMulSettings).length = 0 := by
    rw [show enabledOpsOf addMulSettings = [.add, .mul] from rfl]
    simp
  obtain ⟨sel, hsel⟩ := weightedRandom_isSome 0 _
    (selectionScoredList_ne_nil addMulSettings warmupPool (fun _ => none) 0
      [mulAttempt1, mulAttempt2] "warmup" hCne)
  obtain ⟨r, hrmem, hreq, -⟩ := mem_selectionScoredList addMulSettings
    warmupPool (fun _ => none) 0 [mulAttempt1, mulAttempt2] "warmup" sel
    (mem_of_weightedRandom hsel)
  refine ⟨⟨rfl, rfl, rfl⟩,
    ⟨addHardRec, ?_, rfl⟩, ⟨mulWarmRec "mul:2x2", ?_, rfl⟩, ?_⟩
  · rw [hCand, warmupPool]
    simp
  · rw [hCand, warmupPool]
    simp
  · refine ⟨⟨sel.record.operation, sel.record.operandA, sel.record.operandB,
      sel.record.correctAnswer, sel.record.key⟩, ?_, ?_⟩
    · rw [selectNextProblem, if_neg hElen, if_neg hClen, hsel]
    · show sel.record.operation = .mul
      rw [hreq]
      exact hall r hrmem

/-- C5 (amended): when the candidate set as it stands after phase
filtering still contains an addition record, a session ending in two
consecutive multiplication attempts makes `selectNextProblem` never return
a multiplication problem. -/
theorem c5_interleaving_hard_constraint (s : Settings)
    (pool : List ProblemRecord) (persisted : String → Option ProblemRecord)
    (today : Int) (rng : Nat → Rat) (fuel : Nat) (uPick : Rat)
    (l : List Attempt) (a1 a2 : Attempt) (phase : String) (p : Problem)
    (h1 : a1.operation = .mul) (h2 : a2.operation = .mul)
    (hadd : ∃ r ∈ phaseFilter phase (candidatesOf s pool persisted),
      r.operation = .add)
    (hres : selectNextProblem s pool persisted today rng fuel uPick
      (l ++ [a1, a2]) phase = some p) :
    p.operation ≠ .mul := by
  by_cases hE : (enabledOpsOf s).length = 0
  · rw [selectNextProblem, if_pos hE] at hres
    cases hres
  by_cases hC : (candidatesOf s pool persisted).length = 0
  · obtain ⟨r, hr, -⟩ := hadd
    rw [List.length_eq_zero.mp hC, phaseFilter_nil] at hr
    exact absurd hr (List.not_mem_nil r)
  rw [selectNextProblem, if_neg hE, if_neg hC] at hres
  cases hw : weightedRandom uPick (selectionScoredList s pool persisted
      today (l ++ [a1, a2]) phase) with
  | none =>
    rw [hw] at hres
    cases hres
  | some sel =>
    rw [hw, Option.some.injEq] at hres
    subst hres
    intro hpm
    have hselmem := mem_of_weightedRandom hw
    rw [selectionScoredList] at hselmem
    have hmem2 := List.mem_of_mem_take hselmem
    have hmem3 := (List.perm_insertionSort scoreGE _).mem_iff.mp hmem2
    obtain ⟨s1, hs1, hrec, -⟩ := mem_balanceOperations _ _ _ _ hmem3
    obtain ⟨r0, hr0, hrne⟩ := hadd
    have hexists : ∃ z ∈ (phaseFilter phase
        (candidatesOf s pool persisted)).map
        (fun r => (⟨r, calculatePriority today r (l ++ [a1, a2])
          (l ++ [a1, a2]).length⟩ : ScoredItem)),
        z.record.operation ≠ a1.operation := by
      refine ⟨_, List.mem_map_of_mem _ hr0, ?_⟩
      show r0.operation ≠ a1.operation
      rw [hrne, h1]
      exact fun hc => nomatch hc
    have hblocked := applyInterleaving_hard_blocked _ l a1 a2
      (by rw [h1, h2]) hexists s1 hs1
    apply hblocked
    rw [← hrec]
    show sel.record.operation = a1.operation
    rw [h1]
    exact hpm

/-- Witness for the amended C5: phase `core`, a pool with one easy
multiplication record and one hard addition record, after two
multiplication attempts. -/
theorem c5_interleaving_hard_constraint_witness :
    mulAttempt1.operation = .mul ∧ mulAttempt2.operation = .mul ∧
    (∃ r ∈ phaseFilter "core"
      (candidatesOf addMulSettings [mulWarmRec "mul:2x7", addHardRec]
        (fun _ => none)), r.operation = .add) ∧
    (⟨.add, 10, 11, 21, "add:10x11"⟩ : Problem).operation ≠ .mul := by
  have hadd : ∃ r ∈ phaseFilter "core"
      (candidatesOf addMulSettings [mulWarmRec "mul:2x7", addHardRec]
        (fun _ => none)), r.operation = .add := by
    refine ⟨addHardRec, ?_, rfl⟩
    show addHardRec ∈ [mulWarmRec "mul:2x7", addHardRec]
    exact List.mem_cons_of_mem _ (List.mem_cons_self _ _)
  have hsl : selectionScoredList addMulSettings
      [mulWarmRec "mul:2x7", addHardRec] (fun _ => none) 0
      [mulAttempt1, mulAttempt2] "core" =
      [⟨addHardRec, calculatePriority 0 addHardRec
        [mulAttempt1, mulAttempt2] 2⟩] := rfl
  have hwr : weightedRandom 0 [(⟨addHardRec, calculatePriority 0 addHardRec
      [mulAttempt1, mulAttempt2] 2⟩ : ScoredItem)] =
      some ⟨addHardRec, calculatePriority 0 addHardRec
        [mulAttempt1, mulAttempt2] 2⟩ := by
    rw [weightedRandom, weightedRandomGo, if_pos ?hle]
    case hle =>
      have h1 := le_max_left (1 : Rat)
        (calculatePriority 0 addHardRec [mulAttempt1, mulAttempt2] 2)
      linarith [mul_nonneg (le_refl (0 : Rat))
        (le_refl (0 : Rat))]
  have hres : selectNextProblem addMulSettings
      [mulWarmRec "mul:2x7", addHardRec] (fun _ => none) 0 (fun _ => 0) 1 0
      ([] ++ [mulAttempt1, mulAttempt2]) "core" =
      some ⟨.add, 10, 11, 21, "add:10x11"⟩ := by
    rw [selectNextProblem, if_neg (by decide), if_neg (by decide),
      show ([] : List Attempt) ++ [mulAttempt1, mulAttempt2] =
        [mulAttempt1, mulAttempt2] from rfl, hsl, hwr]
    rfl
  exact ⟨rfl, rfl, hadd,
    c5_interleaving_hard_constraint addMulSettings
      [mulWarmRec "mul:2x7", addHardRec] (fun _ => none) 0 (fun _ => 0) 1 0
      [] mulAttempt1 mulAttempt2 "core" _ rfl rfl hadd hres⟩

end QP
